import Mathlib

set_option maxRecDepth 8000

/-!
Shallow embedding of the ComedoBot classification core:
agent/agent.py (normalizer, term matcher, strict ingredient classifier,
batch classifier, URL sanitizer), agent/comedogen_base.py (fixed term
tables) and bot/bot.py (risk aggregator calc_risk_level_strict).

Python strings are modelled as lists of characters (type Str below);
Python ints appearing as positions and cutoffs are natural numbers (all
call sites produce 1-based enumerate indices).  Python None flowing into
optional string slots is modelled with Option.
-/

abbrev Str := List Char

def s2l (s : String) : Str := s.data

/-- Python regex class backslash-s for str patterns matches exactly the
Unicode whitespace characters; this is the full CPython set, listed by
code point. -/
def isPySpace (c : Char) : Bool :=
  decide (c.toNat = 32) || decide (9 ≤ c.toNat ∧ c.toNat ≤ 13) ||
  decide (28 ≤ c.toNat ∧ c.toNat ≤ 31) || decide (c.toNat = 133) ||
  decide (c.toNat = 160) || decide (c.toNat = 5760) ||
  decide (8192 ≤ c.toNat ∧ c.toNat ≤ 8202) || decide (c.toNat = 8232) ||
  decide (c.toNat = 8233) || decide (c.toNat = 8239) ||
  decide (c.toNat = 8287) || decide (c.toNat = 12288)

/-- Lowercase ASCII letter, digit, or hyphen: the non-whitespace part of
the character class of the `_non_alnum` regex in agent.py. -/
def keepNonSpace (c : Char) : Bool :=
  decide (97 ≤ c.toNat ∧ c.toNat ≤ 122) ||
  decide (48 ≤ c.toNat ∧ c.toNat ≤ 57) ||
  decide (c.toNat = 45)

/-- The full character class of the `_non_alnum` regex: a character
survives the first substitution of `_norm` iff it is in this class. -/
def keepClass (c : Char) : Bool := keepNonSpace c || isPySpace c

/-- Python str.lower per character.  ASCII uppercase maps down by 32; the
only non-ASCII characters whose Python lowercase form contains ASCII
characters are U+0130 (maps to "i" plus combining dot U+0307) and U+212A
(Kelvin sign, maps to "k"); every other non-ASCII character is either
unchanged or maps to a non-ASCII character, and all of those are erased
to a space by the `_non_alnum` substitution that follows, so leaving them
unchanged here is observationally faithful for `_norm`. -/
def pyLowerChar (c : Char) : Str :=
  if 65 ≤ c.toNat ∧ c.toNat ≤ 90 then [Char.ofNat (c.toNat + 32)]
  else if c.toNat = 304 then [Char.ofNat 105, Char.ofNat 775]
  else if c.toNat = 8490 then [Char.ofNat 107]
  else [c]

def pyLower : Str → Str
  | [] => []
  | c :: rest => pyLowerChar c ++ pyLower rest

/-- One pass of `_non_alnum.sub(" ", text)`: every maximal run of
characters outside `keepClass` becomes a single space.  The flag records
whether the previous character was part of such a run. -/
def subBadAux : Bool → Str → Str
  | _, [] => []
  | prevBad, c :: rest =>
    if keepClass c then c :: subBadAux false rest
    else if prevBad then subBadAux true rest
    else ' ' :: subBadAux true rest

/-- One pass of `_spaces.sub(" ", text)`: every maximal whitespace run
becomes a single space.  The flag records whether the previous character
was whitespace. -/
def collapseWsAux : Bool → Str → Str
  | _, [] => []
  | prevWs, c :: rest =>
    if isPySpace c then
      (if prevWs then collapseWsAux true rest
       else ' ' :: collapseWsAux true rest)
    else c :: collapseWsAux false rest

/-- Python str.strip with no arguments: drop Unicode whitespace from both
ends. -/
def pyStrip (l : Str) : Str :=
  ((l.dropWhile isPySpace).reverse.dropWhile isPySpace).reverse

/-- agent.py `_norm` on an actual string: lower-case, replace runs of
characters outside the class by one space, collapse whitespace runs to
one space, strip. -/
def normStr (text : Str) : Str :=
  pyStrip (collapseWsAux false (subBadAux false (pyLower text)))

/-- Python `text or ""` for an optional string slot (None and the empty
string both become the empty string). -/
def pyOrEmpty : Option Str → Str
  | none => []
  | some s => s

/-- agent.py `_norm`, including the `(text or "")` total-input guard. -/
def _norm (text : Option Str) : Str := normStr (pyOrEmpty text)

/-- Python regex class backslash-w restricted to ASCII.  `_has_word` and
the acid-derivative pattern are only ever applied to normalized text, in
which every character is ASCII, so the Unicode part of the class is
unreachable. -/
def isPyWordChar (c : Char) : Bool :=
  decide (48 ≤ c.toNat ∧ c.toNat ≤ 57) ||
  decide (65 ≤ c.toNat ∧ c.toNat ≤ 90) ||
  decide (97 ≤ c.toNat ∧ c.toNat ≤ 122) ||
  decide (c.toNat = 95)

/-- A regex backslash-b boundary next to a word made of word characters:
the neighbouring character is absent or a non-word character. -/
def nonWordEdge : Option Char → Bool
  | none => true
  | some c => !isPyWordChar c

/-- Python substring test `needle in hay`. -/
def containsSub : Str → Str → Bool
  | needle, [] => needle.isEmpty
  | needle, c :: rest => needle.isPrefixOf (c :: rest) || containsSub needle rest

/-- Search for the word `w` with backslash-b boundaries on both sides,
trying every start position; `prev` is the character just before the
current position.  All words passed in by the source are nonempty and
consist of word characters, for which this is exactly the semantics of
`re.search(rf"\b\x7bword\x7d\b", text)`. -/
def hasWordAux (w : Str) : Option Char → Str → Bool
  | _, [] => false
  | prev, c :: rest =>
    (nonWordEdge prev && w.isPrefixOf (c :: rest) &&
      nonWordEdge ((c :: rest).drop w.length).head?) ||
    hasWordAux w (some c) rest

/-- agent.py `_has_word(text, word)`. -/
def _has_word (text word : Str) : Bool := hasWordAux word none text

/-- agent.py `_matches_phrase(term, ingredient_norm)`: a term with an
internal space is matched as a substring, a single word as a whole
word. -/
def _matches_phrase (term ingredient_norm : Str) : Bool :=
  let t := normStr term
  if containsSub (s2l " ") t then containsSub t ingredient_norm
  else _has_word ingredient_norm t

/-- comedogen_base.py `hard_comedogens`, in source order.  The source is a
Python set whose iteration order is unspecified, but every successful
hard match produces the same flags, so the order cannot affect the
classifier result. -/
def hard_comedogens : List Str := List.map s2l
  ["lanolin", "petrolatum", "paraffinum", "kerosinum", "ceresin", "wax",
   "cera wax", "palmitic acid", "stearic acid", "lauric acid",
   "myristic acid", "capric acid", "caprylic acid", "olive oil",
   "soybean oil", "corn oil", "cottonseed oil", "sesame oil",
   "arachis oil"]

/-- comedogen_base.py `conditional_comedogens`, a mapping from term to
early-position cutoff, in insertion (= iteration) order. -/
def conditional_comedogens : List (Str × Nat) :=
  [(s2l "shea butter", 5), (s2l "lanolin", 5), (s2l "squalene", 5),
   (s2l "squalane", 5), (s2l "grape seed oil", 5), (s2l "sil", 5),
   (s2l "methicone", 5), (s2l "dimethicone", 5)]

/-- The six exact fatty-acid phrases singled out in
`classify_ingredient_strict`. -/
def acid_terms : List Str := List.map s2l
  ["palmitic acid", "stearic acid", "lauric acid", "myristic acid",
   "capric acid", "caprylic acid"]

/-- The alternatives of agent.py `_acid_derivative_pattern`. -/
def acid_derivative_words : List Str := List.map s2l
  ["palmitate", "stearate", "laurate", "myristate", "caprate",
   "caprylate"]

/-- `_acid_derivative_pattern.search(n)`: some derivative word occurs as a
whole word (the pattern is a whole-word alternation; n is already
lowercase so the IGNORECASE flag is inert). -/
def _acid_derivative_search (n : Str) : Bool :=
  acid_derivative_words.any (fun w => _has_word n w)

/-- The flag fragment returned by `classify_ingredient_strict`. -/
structure Flags where
  is_hard : Bool
  is_conditional : Bool
  early_conditional : Bool
deriving DecidableEq

/-- The hard-term loop of `classify_ingredient_strict`: returns whether
some hard term fires, with the six acid phrases matched only exactly and
the acid-derivative guard applied to other acid-containing terms. -/
def hardLoop : List Str → Str → Bool
  | [], _ => false
  | term :: rest, n =>
    let t := normStr term
    if acid_terms.contains t then
      (if _matches_phrase t n then true else hardLoop rest n)
    else if _matches_phrase t n then
      (if _acid_derivative_search n && containsSub (s2l "acid") t then
        hardLoop rest n
       else true)
    else hardLoop rest n

/-- The conditional-term loop of `classify_ingredient_strict`: sil is
whole-word only, methicone and dimethicone are plain substrings, every
other term goes through `_matches_phrase`; on a match the early flag is
position less-or-equal the cutoff of the matching term. -/
def condLoop : List (Str × Nat) → Str → Nat → Flags
  | [], _, _ => ⟨false, false, false⟩
  | (term, cutoff) :: rest, n, position =>
    let t := normStr term
    if t = s2l "sil" then
      (if _has_word n (s2l "sil") then ⟨false, true, decide (position ≤ cutoff)⟩
       else condLoop rest n position)
    else if t = s2l "methicone" ∨ t = s2l "dimethicone" then
      (if containsSub t n then ⟨false, true, decide (position ≤ cutoff)⟩
       else condLoop rest n position)
    else if _matches_phrase t n then ⟨false, true, decide (position ≤ cutoff)⟩
    else condLoop rest n position

/-- agent.py `classify_ingredient_strict(name, position)`. -/
def classify_ingredient_strict (name : Str) (position : Nat) : Flags :=
  let n := normStr name
  if containsSub (s2l "wax") n && _has_word n (s2l "wax") then
    ⟨true, false, false⟩
  else if hardLoop hard_comedogens n then ⟨true, false, false⟩
  else condLoop conditional_comedogens n position

/-- One input dict of the batch classifier: only the name slot is read;
a missing or None name is modelled by none. -/
structure IngredientIn where
  name : Option Str
deriving DecidableEq

/-- `ing.get("name") or ""`. -/
def nameOrEmpty (ing : IngredientIn) : Str := pyOrEmpty ing.name

/-- An ingredient dict after `apply_comedogenic_flags_strict` has set its
flags; position is the 1-based enumerate index at which the flags were
computed. -/
structure IngredientRecord where
  name : Str
  position : Nat
  is_hard : Bool
  is_conditional : Bool
  early_conditional : Bool
deriving DecidableEq

/-- The record written for one ingredient at enumerate index `idx`. -/
def recordOf (ing : IngredientIn) (idx : Nat) : IngredientRecord :=
  let flags := classify_ingredient_strict (nameOrEmpty ing) idx
  ⟨nameOrEmpty ing, idx, flags.is_hard, flags.is_conditional,
   flags.early_conditional⟩

/-- The `for idx, ing in enumerate(ingredients, start=1)` loop of
`apply_comedogenic_flags_strict`, started at index `idx`. -/
def applyFrom : Nat → List IngredientIn → List IngredientRecord
  | _, [] => []
  | idx, ing :: rest => recordOf ing idx :: applyFrom (idx + 1) rest

/-- agent.py `apply_comedogenic_flags_strict` (the mutation of the dicts
is modelled by returning the list of updated records, in order). -/
def apply_comedogenic_flags_strict
    (ingredients : List IngredientIn) : List IngredientRecord :=
  applyFrom 1 ingredients

/-- bot.py `EARLY_CUTOFF`. -/
def EARLY_CUTOFF : Nat := 5

/-- The counting loop of bot.py `calc_risk_level_strict`, started at
enumerate index `idx`: returns (hard_positions, conditional_positions,
early_conditionals).  An index enters early_conditionals iff the record
is conditional and the index is at most EARLY_CUTOFF; the stored
early_conditional flag is not consulted. -/
def riskScan : Nat → List IngredientRecord → List Nat × List Nat × List Nat
  | _, [] => ([], [], [])
  | idx, ing :: rest =>
    let t := riskScan (idx + 1) rest
    ((if ing.is_hard then idx :: t.1 else t.1),
     (if ing.is_conditional then idx :: t.2.1 else t.2.1),
     (if ing.is_conditional && decide (idx ≤ EARLY_CUTOFF) then idx :: t.2.2
      else t.2.2))

/-- bot.py `calc_risk_level_strict`: the guarded decision chain over the
three position lists, with the trailing defensive return of "none". -/
def calc_risk_level_strict (ingredients : List IngredientRecord) : String :=
  if (riskScan 1 ingredients).1 ≠ [] ∨ 2 ≤ (riskScan 1 ingredients).2.2.length
    then "high"
  else if (riskScan 1 ingredients).2.2.length = 1 ∧
      (riskScan 1 ingredients).1 = [] then "medium"
  else if (riskScan 1 ingredients).2.1 ≠ [] ∧
      (riskScan 1 ingredients).2.2 = [] ∧
      (riskScan 1 ingredients).1 = [] then "low"
  else if (riskScan 1 ingredients).1 = [] ∧
      (riskScan 1 ingredients).2.1 = [] then "none"
  else "none"

/-- Modelled from the spec (for the C10 comparison): the same counting
loop but with the early list driven by the stored early_conditional flag
of each record instead of recomputing earliness from the index. -/
def riskScanFlag : Nat → List IngredientRecord →
    List Nat × List Nat × List Nat
  | _, [] => ([], [], [])
  | idx, ing :: rest =>
    let t := riskScanFlag (idx + 1) rest
    ((if ing.is_hard then idx :: t.1 else t.1),
     (if ing.is_conditional then idx :: t.2.1 else t.2.1),
     (if ing.early_conditional then idx :: t.2.2 else t.2.2))

/-- Modelled from the spec (for the C10 comparison): the aggregator with
earliness taken from the classifier flag. -/
def calc_risk_level_via_flag (ingredients : List IngredientRecord) : String :=
  if (riskScanFlag 1 ingredients).1 ≠ [] ∨
      2 ≤ (riskScanFlag 1 ingredients).2.2.length then "high"
  else if (riskScanFlag 1 ingredients).2.2.length = 1 ∧
      (riskScanFlag 1 ingredients).1 = [] then "medium"
  else if (riskScanFlag 1 ingredients).2.1 ≠ [] ∧
      (riskScanFlag 1 ingredients).2.2 = [] ∧
      (riskScanFlag 1 ingredients).1 = [] then "low"
  else if (riskScanFlag 1 ingredients).1 = [] ∧
      (riskScanFlag 1 ingredients).2.1 = [] then "none"
  else "none"

/-- Replace the stored early_conditional flag of a record by an arbitrary
function of the record (used to state that the aggregator never reads
this flag). -/
def setEarly (g : IngredientRecord → Bool) (r : IngredientRecord) :
    IngredientRecord :=
  { r with early_conditional := g r }

/-- The classifier invariant on a record list starting at enumerate index
`idx`: each stored early_conditional flag equals conditional-and-early-
position, exactly as `classify_ingredient_strict` assigns it (all shipped
cutoffs equal EARLY_CUTOFF). -/
def earlyConsistentFrom : Nat → List IngredientRecord → Bool
  | _, [] => true
  | idx, r :: rest =>
    (r.early_conditional ==
      (r.is_conditional && decide (idx ≤ EARLY_CUTOFF))) &&
    earlyConsistentFrom (idx + 1) rest

/-- H of the spec decision table: count of records with is_hard. -/
def countHard (recs : List IngredientRecord) : Nat :=
  recs.countP (fun r => r.is_hard)

/-- C of the spec decision table: count of records with is_conditional. -/
def countCond (recs : List IngredientRecord) : Nat :=
  recs.countP (fun r => r.is_conditional)

/-- E of the spec decision table: count of records with is_conditional
together with is_early_conditional. -/
def countEarlyCond (recs : List IngredientRecord) : Nat :=
  recs.countP (fun r => r.is_conditional && r.early_conditional)

/-- Count of records whose stored early_conditional flag is true. -/
def countEarlyFlag (recs : List IngredientRecord) : Nat :=
  recs.countP (fun r => r.early_conditional)

/-- The code points stripped by `url.strip(...)` in
`_normalize_source_url`: space, double quote, single quote, parentheses,
square brackets, curly brackets, angle brackets. -/
def stripSetNats : List Nat := [32, 34, 39, 40, 41, 91, 93, 123, 125, 60, 62]

def inStripSet (c : Char) : Bool := stripSetNats.contains c.toNat

/-- Python str.strip with the fixed punctuation set. -/
def stripPunct (l : Str) : Str :=
  ((l.dropWhile inStripSet).reverse.dropWhile inStripSet).reverse

/-- The three characters of the interior-whitespace rejection test in
`_normalize_source_url`: space, newline, tab. -/
def isWsChar (c : Char) : Bool :=
  decide (c.toNat = 32) || decide (c.toNat = 10) || decide (c.toNat = 9)

/-- ASCII lowercasing for the case-insensitive anchored regex tests.  The
regexes in the source are compiled with IGNORECASE over Unicode, but
their patterns are ASCII and the only non-ASCII characters Python would
fold onto them cannot begin a URL the later length test accepts, so the
ASCII fold is observationally faithful here. -/
def asciiLower (c : Char) : Char :=
  if 65 ≤ c.toNat ∧ c.toNat ≤ 90 then Char.ofNat (c.toNat + 32) else c

/-- Anchored case-insensitive match of a lowercase pattern. -/
def startsWithCI (pat l : Str) : Bool := pat.isPrefixOf (l.map asciiLower)

/-- agent.py `_normalize_source_url`. -/
def _normalize_source_url (value : Option Str) : Option Str :=
  match value with
  | none => none
  | some v =>
    let url0 := pyStrip v
    if url0.isEmpty then none
    else if url0.any isWsChar then none
    else
      let url1 := stripPunct url0
      if url1.isEmpty then none
      else
        let url2 := if (s2l "//").isPrefixOf url1 then s2l "https:" ++ url1
                    else url1
        let url3 := if startsWithCI (s2l "www.") url2 then s2l "https://" ++ url2
                    else url2
        if !(startsWithCI (s2l "http://") url3 ||
             startsWithCI (s2l "https://") url3) then none
        else if url3.length < 12 then none
        else some url3

/-- Modelled from the spec wording of C7: the ordered sanitation rules as
the spec lists them (non-string input is the none case; trim; reject
empty; reject interior space, tab or newline; strip surrounding
punctuation; reject empty; prefix a scheme-relative or www value; reject
a non-http(s) scheme; reject a final length below 12; otherwise return
the final string unchanged). -/
def sanitize_spec (value : Option Str) : Option Str :=
  match value with
  | none => none
  | some v =>
    let trimmed := pyStrip v
    if trimmed.isEmpty then none
    else if trimmed.any isWsChar then none
    else
      let stripped := stripPunct trimmed
      if stripped.isEmpty then none
      else
        let withScheme :=
          if (s2l "//").isPrefixOf stripped then s2l "https:" ++ stripped
          else stripped
        let withHttps :=
          if startsWithCI (s2l "www.") withScheme then
            s2l "https://" ++ withScheme
          else withScheme
        if !(startsWithCI (s2l "http://") withHttps ||
             startsWithCI (s2l "https://") withHttps) then none
        else if withHttps.length < 12 then none
        else some withHttps

/-- A character that can appear in normalized text: lowercase ASCII
letter, digit or hyphen, or the plain space. -/
def cleanChar (c : Char) : Bool := keepNonSpace c || c == ' '

def headNotSpace : Str → Bool
  | [] => true
  | c :: _ => !isPySpace c

/-- No whitespace character is preceded by whitespace (with the flag
giving the whitespace status of the virtual previous character); with the
flag true this also forbids leading whitespace. -/
def noRunAfter : Bool → Str → Bool
  | _, [] => true
  | prevWs, c :: rest =>
    !(prevWs && isPySpace c) && noRunAfter (isPySpace c) rest

/-! ## Supporting lemmas -/

theorem containsSub_of_hasWordAux (w : Str) :
    ∀ (prev : Option Char) (t : Str),
      hasWordAux w prev t = true → containsSub w t = true := by
  intro prev t
  induction t generalizing prev with
  | nil => simp [hasWordAux]
  | cons c rest ih =>
    intro h
    simp only [hasWordAux, Bool.or_eq_true, Bool.and_eq_true] at h
    rcases h with ⟨⟨_, hpre⟩, _⟩ | h
    · simp [containsSub, hpre]
    · simp [containsSub, ih (some c) h]

theorem classify_empty_name (p : Nat) :
    classify_ingredient_strict [] p = ⟨false, false, false⟩ := rfl

theorem applyFrom_length (l : List IngredientIn) :
    ∀ k, (applyFrom k l).length = l.length := by
  induction l with
  | nil => intro k; rfl
  | cons ing rest ih => intro k; simp [applyFrom, ih]

theorem applyFrom_get? (l : List IngredientIn) :
    ∀ (k i : Nat), (applyFrom k l).get? i =
      (l.get? i).map (fun ing => recordOf ing (k + i)) := by
  induction l with
  | nil => intro k i; cases i <;> rfl
  | cons ing rest ih =>
    intro k i
    cases i with
    | zero => rfl
    | succ j =>
      show (applyFrom (k + 1) rest).get? j =
        (rest.get? j).map (fun ing => recordOf ing (k + (j + 1)))
      rw [ih (k + 1) j, show k + 1 + j = k + (j + 1) from by omega]

/-! ## Claim theorems -/

/-- C2 (corrected): the wax short-circuit rule classifies as hard every
name whose normalized form contains "wax" as a whole word; in particular
"Candelilla Wax" is hard, while "Waxillin" is not hard and - contrary to
the claim - "Beeswax" is not hard either, because "wax" is not a
standalone word of "beeswax". -/
theorem c2_wax_whole_word_rule :
    (∀ name p, _has_word (normStr name) (s2l "wax") = true →
      (classify_ingredient_strict name p).is_hard = true) ∧
    (classify_ingredient_strict (s2l "Candelilla Wax") 1).is_hard = true ∧
    (classify_ingredient_strict (s2l "Beeswax") 1).is_hard = false ∧
    (classify_ingredient_strict (s2l "Waxillin") 1).is_hard = false := by
  refine ⟨?_, rfl, rfl, rfl⟩
  intro name p h
  have hc : containsSub (s2l "wax") (normStr name) = true :=
    containsSub_of_hasWordAux _ _ _ h
  simp [classify_ingredient_strict, h, hc]

/-- C2 witness: the whole-word branch of the amended rule applied at the
concrete name "Candelilla Wax" at position 3. -/
theorem c2_wax_whole_word_rule_witness :
    (classify_ingredient_strict (s2l "Candelilla Wax") 3).is_hard = true :=
  c2_wax_whole_word_rule.1 (s2l "Candelilla Wax") 3 rfl

/-- C2 counterexample: the claim asserts that "Beeswax" is classified
hard, but the code computes is_hard = false for it (no whole-word "wax"
occurrence in "beeswax"). -/
theorem c2_beeswax_counterexample :
    (classify_ingredient_strict (s2l "Beeswax") 1).is_hard = false := rfl

/-- C3 counterexample: an empty-name entry is not excluded from the
enumerate iteration.  With five nameless entries followed by
"Dimethicone", the code classifies "Dimethicone" at position 6 (so
early_conditional is false), while the list with the empty entries absent
classifies it at position 1 with early_conditional true - so positions
are not assigned as if the empty entries were absent. -/
theorem c3_empty_names_counterexample :
    ((apply_comedogenic_flags_strict
        (List.replicate 5 (IngredientIn.mk none) ++
          [IngredientIn.mk (some (s2l "Dimethicone"))])).get? 5 =
      some (IngredientRecord.mk (s2l "Dimethicone") 6 false true false)) ∧
    ((apply_comedogenic_flags_strict
        [IngredientIn.mk (some (s2l "Dimethicone"))]).get? 0 =
      some (IngredientRecord.mk (s2l "Dimethicone") 1 false true true)) :=
  ⟨rfl, rfl⟩

/-- C3 (corrected): a missing or empty ingredient name never fails the
batch and is classified with all-false flags, but it does occupy its
1-based enumerate position: the record list keeps one record per input
entry, the empty entry keeps position i + 1, and subsequent positions
count it. -/
theorem c3_empty_name_occupies_position (ings : List IngredientIn)
    (i : Nat) (ing : IngredientIn) (h : ings.get? i = some ing)
    (hempty : ing.name = none ∨ ing.name = some []) :
    (apply_comedogenic_flags_strict ings).length = ings.length ∧
    (apply_comedogenic_flags_strict ings).get? i =
      some (IngredientRecord.mk [] (i + 1) false false false) := by
  refine ⟨applyFrom_length ings 1, ?_⟩
  rw [apply_comedogenic_flags_strict, applyFrom_get? ings 1 i, h]
  have hname : nameOrEmpty ing = [] := by
    rcases hempty with h1 | h1 <;> simp [nameOrEmpty, pyOrEmpty, h1]
  rw [show (1 : Nat) + i = i + 1 from by omega]
  simp [recordOf, hname, classify_empty_name]

/-- C3 witness: a single nameless entry yields one all-false record at
position 1. -/
theorem c3_empty_name_occupies_position_witness :
    (apply_comedogenic_flags_strict [IngredientIn.mk none]).length = 1 ∧
    (apply_comedogenic_flags_strict [IngredientIn.mk none]).get? 0 =
      some (IngredientRecord.mk [] 1 false false false) :=
  c3_empty_name_occupies_position [IngredientIn.mk none] 0
    (IngredientIn.mk none) rfl (Or.inl rfl)

/-- C4 (confirmed): the six fatty-acid hard terms fire only on the exact
"... acid" phrase; -ate derivatives are never hard.  At every position,
"Sodium Palmitate" is not hard while "Palmitic Acid" is hard, and the
other derivative salts are not hard. -/
theorem c4_acid_derivative_exclusion :
    (∀ p, (classify_ingredient_strict (s2l "Sodium Palmitate") p).is_hard
      = false) ∧
    (∀ p, (classify_ingredient_strict (s2l "Palmitic Acid") p).is_hard
      = true) ∧
    (∀ p, (classify_ingredient_strict (s2l "Sodium Stearate") p).is_hard
      = false) ∧
    (∀ p, (classify_ingredient_strict (s2l "Sodium Laurate") p).is_hard
      = false) ∧
    (∀ p, (classify_ingredient_strict (s2l "Sodium Myristate") p).is_hard
      = false) ∧
    (∀ p, (classify_ingredient_strict (s2l "Sodium Caprate") p).is_hard
      = false) ∧
    (∀ p, (classify_ingredient_strict (s2l "Sodium Caprylate") p).is_hard
      = false) :=
  ⟨fun _ => rfl, fun _ => rfl, fun _ => rfl, fun _ => rfl, fun _ => rfl,
   fun _ => rfl, fun _ => rfl⟩

/-- C5 (confirmed): "sil" is matched as a whole word only, so "Silica" is
not conditional, while "methicone" is matched as a plain substring, so
"Methyl Trimethicone" is conditional. -/
theorem c5_sil_vs_methicone :
    (classify_ingredient_strict (s2l "Silica") 2).is_conditional = false ∧
    (classify_ingredient_strict
      (s2l "Methyl Trimethicone") 2).is_conditional = true :=
  ⟨rfl, rfl⟩

/-- C7 (confirmed): the URL sanitizer agrees everywhere with the ordered
rule list of the spec, and the five boundary examples evaluate as the
claim states. -/
theorem c7_url_sanitizer :
    (∀ value, _normalize_source_url value = sanitize_spec value) ∧
    _normalize_source_url (some (s2l "www.example.com/product")) =
      some (s2l "https://www.example.com/product") ∧
    _normalize_source_url (some (s2l "//example.com/p")) =
      some (s2l "https://example.com/p") ∧
    _normalize_source_url (some (s2l "La Roche-Posay Effaclar")) = none ∧
    _normalize_source_url (some (s2l "https://x")) = none ∧
    _normalize_source_url none = none := by
  refine ⟨?_, rfl, rfl, rfl, rfl, rfl⟩
  intro v
  cases v <;> rfl

theorem condLoop_early (l : List (Str × Nat)) (n : Str) (p : Nat)
    (h5 : ∀ pr ∈ l, pr.2 = 5) :
    (condLoop l n p).early_conditional =
      ((condLoop l n p).is_conditional && decide (p ≤ 5)) := by
  induction l with
  | nil => rfl
  | cons pr rest ih =>
    obtain ⟨term, cutoff⟩ := pr
    have hc : cutoff = 5 := h5 (term, cutoff) (List.mem_cons_self _ _)
    have hrest : ∀ q ∈ rest, q.2 = 5 := fun q hq => h5 q (List.mem_cons_of_mem _ hq)
    subst hc
    simp only [condLoop]
    split
    · split
      · simp
      · exact ih hrest
    · split
      · split
        · simp
        · exact ih hrest
      · split
        · simp
        · exact ih hrest

theorem classify_early (name : Str) (p : Nat) :
    (classify_ingredient_strict name p).early_conditional =
      ((classify_ingredient_strict name p).is_conditional &&
        decide (p ≤ 5)) := by
  have h5 : ∀ pr ∈ conditional_comedogens, pr.2 = 5 := by decide
  simp only [classify_ingredient_strict]
  split
  · rfl
  · split
    · rfl
    · exact condLoop_early conditional_comedogens (normStr name) p h5

theorem recordOf_early (ing : IngredientIn) (k : Nat) :
    (recordOf ing k).early_conditional =
      ((recordOf ing k).is_conditional && decide (k ≤ EARLY_CUTOFF)) :=
  classify_early (nameOrEmpty ing) k

theorem riskScan_hard_length (l : List IngredientRecord) :
    ∀ k, (riskScan k l).1.length = countHard l := by
  induction l with
  | nil => intro k; rfl
  | cons r rest ih =>
    intro k
    by_cases h : r.is_hard = true <;>
      simp [riskScan, countHard, List.countP_cons, h, ih (k + 1)]

theorem riskScan_cond_length (l : List IngredientRecord) :
    ∀ k, (riskScan k l).2.1.length = countCond l := by
  induction l with
  | nil => intro k; rfl
  | cons r rest ih =>
    intro k
    by_cases h : r.is_conditional = true <;>
      simp [riskScan, countCond, List.countP_cons, h, ih (k + 1)]

theorem riskScan_early_length (l : List IngredientRecord) :
    ∀ k, earlyConsistentFrom k l = true →
      (riskScan k l).2.2.length = countEarlyCond l := by
  induction l with
  | nil => intro k _; rfl
  | cons r rest ih =>
    intro k hk
    simp only [earlyConsistentFrom, Bool.and_eq_true, beq_iff_eq] at hk
    obtain ⟨hr, hrest⟩ := hk
    have ht := ih (k + 1) hrest
    simp only [riskScan, countEarlyCond, List.countP_cons, hr]
    by_cases hc : r.is_conditional = true
    · by_cases hke : k ≤ EARLY_CUTOFF <;>
        simp [hc, hke, ht, countEarlyCond]
    · simp [hc, ht, countEarlyCond]

theorem countEarlyCond_le_countCond (recs : List IngredientRecord) :
    countEarlyCond recs ≤ countCond recs := by
  induction recs with
  | nil => exact Nat.le_refl 0
  | cons r rest ih =>
    simp only [countEarlyCond, countCond, List.countP_cons] at *
    by_cases h : r.is_conditional = true
    · by_cases h2 : r.early_conditional = true <;> simp [h, h2] <;> omega
    · simp [h]; omega

theorem riskScan_eq_flag_on_applyFrom (ings : List IngredientIn) :
    ∀ k, riskScan k (applyFrom k ings) = riskScanFlag k (applyFrom k ings) := by
  induction ings with
  | nil => intro k; rfl
  | cons ing rest ih =>
    intro k
    simp only [applyFrom, riskScan, riskScanFlag, ih (k + 1)]
    rw [recordOf_early ing k]

theorem riskScan_early_eq_countEarlyFlag (ings : List IngredientIn) :
    ∀ k, (riskScan k (applyFrom k ings)).2.2.length =
      countEarlyFlag (applyFrom k ings) := by
  induction ings with
  | nil => intro k; rfl
  | cons ing rest ih =>
    intro k
    have he := recordOf_early ing k
    simp only [applyFrom, riskScan, countEarlyFlag, List.countP_cons, ← he,
      ih (k + 1)]
    by_cases hf : (recordOf ing k).early_conditional = true <;>
      simp [hf, countEarlyFlag, ih (k + 1)]

theorem riskScan_map_setEarly (g : IngredientRecord → Bool)
    (recs : List IngredientRecord) :
    ∀ k, riskScan k (recs.map (setEarly g)) = riskScan k recs := by
  induction recs with
  | nil => intro k; rfl
  | cons r rest ih =>
    intro k
    simp only [List.map_cons, riskScan, setEarly, ih (k + 1)]

/-- C1 (confirmed): for every record sequence carrying the flags the
classifier assigns (earlyConsistentFrom 1 formalizes the data-model
invariant that is_early_conditional equals conditional-and-early-
position), calc_risk_level_strict follows the decision table: "high" when
H is at least 1 or E at least 2, "medium" when E = 1 and H = 0, "low"
when C is at least 1 with E = 0 and H = 0, and "none" when H = 0 and
C = 0 (in particular for the empty sequence). -/
theorem c1_risk_decision_table (recs : List IngredientRecord)
    (hcons : earlyConsistentFrom 1 recs = true) :
    (1 ≤ countHard recs ∨ 2 ≤ countEarlyCond recs →
      calc_risk_level_strict recs = "high") ∧
    (countEarlyCond recs = 1 ∧ countHard recs = 0 →
      calc_risk_level_strict recs = "medium") ∧
    (1 ≤ countCond recs ∧ countEarlyCond recs = 0 ∧ countHard recs = 0 →
      calc_risk_level_strict recs = "low") ∧
    (countHard recs = 0 ∧ countCond recs = 0 →
      calc_risk_level_strict recs = "none") := by
  have hH := riskScan_hard_length recs 1
  have hC := riskScan_cond_length recs 1
  have hE := riskScan_early_length recs 1 hcons
  have hEC := countEarlyCond_le_countCond recs
  refine ⟨?_, ?_, ?_, ?_⟩
  · intro h
    have hcond : (riskScan 1 recs).1 ≠ [] ∨
        2 ≤ (riskScan 1 recs).2.2.length := by
      rcases h with h | h
      · exact Or.inl (List.length_pos.mp (by omega))
      · exact Or.inr (by omega)
    simp only [calc_risk_level_strict]
    rw [if_pos hcond]
  · intro h
    obtain ⟨h1, h2⟩ := h
    have hnil : (riskScan 1 recs).1 = [] := List.length_eq_zero.mp (by omega)
    have hcond1 : ¬((riskScan 1 recs).1 ≠ [] ∨
        2 ≤ (riskScan 1 recs).2.2.length) := by
      intro hcon
      rcases hcon with hx | hx
      · exact hx hnil
      · omega
    simp only [calc_risk_level_strict]
    rw [if_neg hcond1, if_pos ⟨by omega, hnil⟩]
  · intro h
    obtain ⟨h1, h2, h3⟩ := h
    have hnil : (riskScan 1 recs).1 = [] := List.length_eq_zero.mp (by omega)
    have hE0 : (riskScan 1 recs).2.2 = [] := List.length_eq_zero.mp (by omega)
    have hCne : (riskScan 1 recs).2.1 ≠ [] := List.length_pos.mp (by omega)
    have hcond1 : ¬((riskScan 1 recs).1 ≠ [] ∨
        2 ≤ (riskScan 1 recs).2.2.length) := by
      intro hcon
      rcases hcon with hx | hx
      · exact hx hnil
      · omega
    have hcond2 : ¬((riskScan 1 recs).2.2.length = 1 ∧
        (riskScan 1 recs).1 = []) := by
      intro hcon
      omega
    simp only [calc_risk_level_strict]
    rw [if_neg hcond1, if_neg hcond2, if_pos ⟨hCne, hE0, hnil⟩]
  · intro h
    obtain ⟨h1, h2⟩ := h
    have hnil : (riskScan 1 recs).1 = [] := List.length_eq_zero.mp (by omega)
    have hCnil : (riskScan 1 recs).2.1 = [] := List.length_eq_zero.mp (by omega)
    have hcond1 : ¬((riskScan 1 recs).1 ≠ [] ∨
        2 ≤ (riskScan 1 recs).2.2.length) := by
      intro hcon
      rcases hcon with hx | hx
      · exact hx hnil
      · omega
    have hcond2 : ¬((riskScan 1 recs).2.2.length = 1 ∧
        (riskScan 1 recs).1 = []) := by
      intro hcon
      omega
    have hcond3 : ¬((riskScan 1 recs).2.1 ≠ [] ∧
        (riskScan 1 recs).2.2 = [] ∧ (riskScan 1 recs).1 = []) := by
      intro hcon
      exact hcon.1 hCnil
    simp only [calc_risk_level_strict]
    rw [if_neg hcond1, if_neg hcond2, if_neg hcond3, if_pos ⟨hnil, hCnil⟩]

/-- C1 witness: a single consistent conditional record at position 1
(one early conditional, no hards) is rated "medium". -/
theorem c1_risk_decision_table_witness :
    earlyConsistentFrom 1
      [IngredientRecord.mk (s2l "squalane") 1 false true true] = true ∧
    calc_risk_level_strict
      [IngredientRecord.mk (s2l "squalane") 1 false true true] = "medium" :=
  ⟨rfl,
   (c1_risk_decision_table
     [IngredientRecord.mk (s2l "squalane") 1 false true true] rfl).2.1
     ⟨rfl, rfl⟩⟩

/-- C8 (confirmed): the batch classifier keeps one record per input in
input order, assigns each record the position equal to its 1-based input
index, and the flags of the record at index i depend only on the name at
index i - two runs on lists agreeing in the name at index i produce
identical flags there. -/
theorem c8_order_and_noninterference (l₁ l₂ : List IngredientIn)
    (i : Nat) (ing₁ ing₂ : IngredientIn)
    (h₁ : l₁.get? i = some ing₁) (h₂ : l₂.get? i = some ing₂)
    (hname : ing₁.name = ing₂.name) :
    (apply_comedogenic_flags_strict l₁).length = l₁.length ∧
    (apply_comedogenic_flags_strict l₁).get? i =
      some (recordOf ing₁ (i + 1)) ∧
    (apply_comedogenic_flags_strict l₂).get? i =
      some (recordOf ing₂ (i + 1)) ∧
    (recordOf ing₁ (i + 1)).position = i + 1 ∧
    (recordOf ing₁ (i + 1)).is_hard = (recordOf ing₂ (i + 1)).is_hard ∧
    (recordOf ing₁ (i + 1)).is_conditional =
      (recordOf ing₂ (i + 1)).is_conditional ∧
    (recordOf ing₁ (i + 1)).early_conditional =
      (recordOf ing₂ (i + 1)).early_conditional := by
  have heq : recordOf ing₁ (i + 1) = recordOf ing₂ (i + 1) := by
    simp [recordOf, nameOrEmpty, hname]
  refine ⟨applyFrom_length l₁ 1, ?_, ?_, rfl, by rw [heq], by rw [heq],
    by rw [heq]⟩
  · rw [apply_comedogenic_flags_strict, applyFrom_get? l₁ 1 i, h₁,
      show (1 : Nat) + i = i + 1 from by omega]
    rfl
  · rw [apply_comedogenic_flags_strict, applyFrom_get? l₂ 1 i, h₂,
      show (1 : Nat) + i = i + 1 from by omega]
    rfl

/-- C8 witness: two runs whose first entries share the name "Lanolin"
(one list has a second, nameless entry) agree on the first record. -/
theorem c8_order_and_noninterference_witness :
    (apply_comedogenic_flags_strict
      [IngredientIn.mk (some (s2l "Lanolin")), IngredientIn.mk none]).length
      = 2 ∧
    (apply_comedogenic_flags_strict
      [IngredientIn.mk (some (s2l "Lanolin")), IngredientIn.mk none]).get? 0
      = some (recordOf (IngredientIn.mk (some (s2l "Lanolin"))) 1) ∧
    (apply_comedogenic_flags_strict
      [IngredientIn.mk (some (s2l "Lanolin"))]).get? 0
      = some (recordOf (IngredientIn.mk (some (s2l "Lanolin"))) 1) ∧
    (recordOf (IngredientIn.mk (some (s2l "Lanolin"))) 1).position = 1 ∧
    (recordOf (IngredientIn.mk (some (s2l "Lanolin"))) 1).is_hard =
      (recordOf (IngredientIn.mk (some (s2l "Lanolin"))) 1).is_hard ∧
    (recordOf (IngredientIn.mk (some (s2l "Lanolin"))) 1).is_conditional =
      (recordOf (IngredientIn.mk (some (s2l "Lanolin"))) 1).is_conditional ∧
    (recordOf (IngredientIn.mk (some (s2l "Lanolin"))) 1).early_conditional =
      (recordOf (IngredientIn.mk (some (s2l "Lanolin"))) 1).early_conditional :=
  c8_order_and_noninterference
    [IngredientIn.mk (some (s2l "Lanolin")), IngredientIn.mk none]
    [IngredientIn.mk (some (s2l "Lanolin"))] 0
    (IngredientIn.mk (some (s2l "Lanolin")))
    (IngredientIn.mk (some (s2l "Lanolin"))) rfl rfl rfl

/-- C9 (confirmed): for every record sequence, one of the four guarded
conditions of calc_risk_level_strict holds (exactly as they are written
in the code, over the three position lists of riskScan), so the trailing
defensive return of "none" is unreachable. -/
theorem c9_fallback_unreachable (recs : List IngredientRecord) :
    ((riskScan 1 recs).1 ≠ [] ∨ 2 ≤ (riskScan 1 recs).2.2.length) ∨
    ((riskScan 1 recs).2.2.length = 1 ∧ (riskScan 1 recs).1 = []) ∨
    ((riskScan 1 recs).2.1 ≠ [] ∧ (riskScan 1 recs).2.2 = [] ∧
      (riskScan 1 recs).1 = []) ∨
    ((riskScan 1 recs).1 = [] ∧ (riskScan 1 recs).2.1 = []) := by
  by_cases h1 : (riskScan 1 recs).1 = []
  · by_cases hE : 2 ≤ (riskScan 1 recs).2.2.length
    · exact Or.inl (Or.inr hE)
    · by_cases hE1 : (riskScan 1 recs).2.2.length = 1
      · exact Or.inr (Or.inl ⟨hE1, h1⟩)
      · have hE0 : (riskScan 1 recs).2.2 = [] :=
          List.length_eq_zero.mp (by omega)
        by_cases hc : (riskScan 1 recs).2.1 = []
        · exact Or.inr (Or.inr (Or.inr ⟨h1, hc⟩))
        · exact Or.inr (Or.inr (Or.inl ⟨hc, hE0, h1⟩))
  · exact Or.inl (Or.inl h1)

/-- C10 (confirmed): the aggregator never reads the stored
early_conditional flag (replacing it by any function of the record leaves
the result unchanged); on every list flagged by
apply_comedogenic_flags_strict and aggregated unchanged the recomputed
early list has exactly as many entries as there are records whose flag is
true, and the aggregator agrees with the flag-driven variant - the two
definitions of early produce the same risk level. -/
theorem c10_early_recomputation_agreement :
    (∀ (recs : List IngredientRecord) (g : IngredientRecord → Bool),
      calc_risk_level_strict (recs.map (setEarly g)) =
        calc_risk_level_strict recs) ∧
    (∀ ings : List IngredientIn,
      (riskScan 1 (apply_comedogenic_flags_strict ings)).2.2.length =
        countEarlyFlag (apply_comedogenic_flags_strict ings)) ∧
    (∀ ings : List IngredientIn,
      calc_risk_level_strict (apply_comedogenic_flags_strict ings) =
        calc_risk_level_via_flag (apply_comedogenic_flags_strict ings)) := by
  refine ⟨?_, ?_, ?_⟩
  · intro recs g
    simp only [calc_risk_level_strict, riskScan_map_setEarly]
  · intro ings
    exact riskScan_early_eq_countEarlyFlag ings 1
  · intro ings
    simp only [calc_risk_level_strict, calc_risk_level_via_flag,
      apply_comedogenic_flags_strict, riskScan_eq_flag_on_applyFrom ings 1]

/-! ## Normalizer development (C6) -/

theorem isPySpace_space : isPySpace ' ' = true := rfl

theorem keepClass_of_cleanChar (c : Char) (h : cleanChar c = true) :
    keepClass c = true := by
  simp only [cleanChar, Bool.or_eq_true] at h
  rcases h with h | h
  · simp [keepClass, h]
  · have hc : c = ' ' := eq_of_beq h
    subst hc
    decide

theorem space_eq_of_cleanChar (c : Char) (h : cleanChar c = true)
    (hs : isPySpace c = true) : c = ' ' := by
  simp only [cleanChar, Bool.or_eq_true] at h
  rcases h with h | h
  · exfalso
    simp only [keepNonSpace, Bool.or_eq_true, decide_eq_true_eq] at h
    simp only [isPySpace, Bool.or_eq_true, decide_eq_true_eq] at hs
    omega
  · exact eq_of_beq h

theorem pyLowerChar_of_cleanChar (c : Char) (h : cleanChar c = true) :
    pyLowerChar c = [c] := by
  simp only [cleanChar, Bool.or_eq_true] at h
  rcases h with h | h
  · simp only [keepNonSpace, Bool.or_eq_true, decide_eq_true_eq] at h
    simp only [pyLowerChar]
    rw [if_neg (by omega), if_neg (by omega), if_neg (by omega)]
  · have hc : c = ' ' := eq_of_beq h
    subst hc
    rfl

theorem pyLower_of_clean (l : Str) (h : ∀ c ∈ l, cleanChar c = true) :
    pyLower l = l := by
  induction l with
  | nil => rfl
  | cons c rest ih =>
    simp only [pyLower]
    rw [pyLowerChar_of_cleanChar c (h c (List.mem_cons_self c rest)),
      ih (fun d hd => h d (List.mem_cons_of_mem c hd))]
    rfl

theorem subBadAux_cons_keep (b : Bool) (d : Char) (rest : Str)
    (hd : keepClass d = true) :
    subBadAux b (d :: rest) = d :: subBadAux false rest := by
  simp [subBadAux, hd]

theorem subBadAux_cons_bad_true (d : Char) (rest : Str)
    (hd : keepClass d = false) :
    subBadAux true (d :: rest) = subBadAux true rest := by
  simp [subBadAux, hd]

theorem subBadAux_cons_bad_false (d : Char) (rest : Str)
    (hd : keepClass d = false) :
    subBadAux false (d :: rest) = ' ' :: subBadAux true rest := by
  simp [subBadAux, hd]

theorem collapseWsAux_cons_space_true (d : Char) (rest : Str)
    (hd : isPySpace d = true) :
    collapseWsAux true (d :: rest) = collapseWsAux true rest := by
  simp [collapseWsAux, hd]

theorem collapseWsAux_cons_space_false (d : Char) (rest : Str)
    (hd : isPySpace d = true) :
    collapseWsAux false (d :: rest) = ' ' :: collapseWsAux true rest := by
  simp [collapseWsAux, hd]

theorem collapseWsAux_cons_nonspace (b : Bool) (d : Char) (rest : Str)
    (hd : isPySpace d = false) :
    collapseWsAux b (d :: rest) = d :: collapseWsAux false rest := by
  simp [collapseWsAux, hd]

theorem mem_subBadAux (l : Str) :
    ∀ (b : Bool) (c : Char), c ∈ subBadAux b l → keepClass c = true := by
  induction l with
  | nil => intro b c hc; simp [subBadAux] at hc
  | cons d rest ih =>
    intro b c hc
    cases hd : keepClass d with
    | true =>
      rw [subBadAux_cons_keep b d rest hd] at hc
      rcases List.mem_cons.mp hc with h1 | h1
      · exact h1 ▸ hd
      · exact ih false c h1
    | false =>
      cases b with
      | true =>
        rw [subBadAux_cons_bad_true d rest hd] at hc
        exact ih true c hc
      | false =>
        rw [subBadAux_cons_bad_false d rest hd] at hc
        rcases List.mem_cons.mp hc with h1 | h1
        · subst h1; decide
        · exact ih true c h1

theorem subBadAux_id (l : Str) (h : ∀ c ∈ l, keepClass c = true) :
    ∀ b, subBadAux b l = l := by
  induction l with
  | nil => intro b; rfl
  | cons d rest ih =>
    intro b
    rw [subBadAux_cons_keep b d rest (h d (List.mem_cons_self d rest)),
      ih (fun c hc => h c (List.mem_cons_of_mem d hc)) false]

theorem mem_collapseWsAux (l : Str) :
    ∀ (b : Bool) (c : Char), c ∈ collapseWsAux b l →
      c = ' ' ∨ (isPySpace c = false ∧ c ∈ l) := by
  induction l with
  | nil => intro b c hc; simp [collapseWsAux] at hc
  | cons d rest ih =>
    intro b c hc
    cases hd : isPySpace d with
    | true =>
      cases b with
      | true =>
        rw [collapseWsAux_cons_space_true d rest hd] at hc
        rcases ih true c hc with h1 | ⟨h1, h2⟩
        · exact Or.inl h1
        · exact Or.inr ⟨h1, List.mem_cons_of_mem d h2⟩
      | false =>
        rw [collapseWsAux_cons_space_false d rest hd] at hc
        rcases List.mem_cons.mp hc with h1 | h1
        · exact Or.inl h1
        · rcases ih true c h1 with h2 | ⟨h2, h3⟩
          · exact Or.inl h2
          · exact Or.inr ⟨h2, List.mem_cons_of_mem d h3⟩
    | false =>
      rw [collapseWsAux_cons_nonspace b d rest hd] at hc
      rcases List.mem_cons.mp hc with h1 | h1
      · subst h1; exact Or.inr ⟨hd, List.mem_cons_self c rest⟩
      · rcases ih false c h1 with h2 | ⟨h2, h3⟩
        · exact Or.inl h2
        · exact Or.inr ⟨h2, List.mem_cons_of_mem d h3⟩

theorem noRunAfter_collapseWsAux (l : Str) :
    ∀ b, noRunAfter b (collapseWsAux b l) = true := by
  induction l with
  | nil => intro b; rfl
  | cons d rest ih =>
    intro b
    cases hd : isPySpace d with
    | true =>
      cases b with
      | true =>
        rw [collapseWsAux_cons_space_true d rest hd]
        exact ih true
      | false =>
        rw [collapseWsAux_cons_space_false d rest hd]
        simp only [noRunAfter, isPySpace_space, Bool.false_and,
          Bool.not_false, Bool.true_and]
        exact ih true
    | false =>
      rw [collapseWsAux_cons_nonspace b d rest hd]
      simp only [noRunAfter, hd, Bool.and_false, Bool.not_false,
        Bool.true_and]
      exact ih false

theorem collapseWsAux_id (l : Str) :
    ∀ b, (∀ c ∈ l, cleanChar c = true) → noRunAfter b l = true →
      collapseWsAux b l = l := by
  induction l with
  | nil => intro b _ _; rfl
  | cons d rest ih =>
    intro b hclean hrun
    simp only [noRunAfter, Bool.and_eq_true] at hrun
    obtain ⟨h1, h2⟩ := hrun
    cases hd : isPySpace d with
    | true =>
      rw [hd] at h2
      have hb : b = false := by
        cases b with
        | false => rfl
        | true => rw [hd] at h1; simp at h1
      subst hb
      rw [collapseWsAux_cons_space_false d rest hd]
      have hd2 : d = ' ' :=
        space_eq_of_cleanChar d (hclean d (List.mem_cons_self d rest)) hd
      rw [ih true (fun c hc => hclean c (List.mem_cons_of_mem d hc)) h2, hd2]
    | false =>
      rw [hd] at h2
      rw [collapseWsAux_cons_nonspace b d rest hd,
        ih false (fun c hc => hclean c (List.mem_cons_of_mem d hc)) h2]

theorem noRunAfter_of_true (l : Str) (h : noRunAfter true l = true) :
    ∀ b, noRunAfter b l = true := by
  cases l with
  | nil => intro b; rfl
  | cons d rest =>
    intro b
    simp only [noRunAfter, Bool.and_eq_true] at h ⊢
    obtain ⟨h1, h2⟩ := h
    have hd : isPySpace d = false := by
      cases hx : isPySpace d with
      | false => rfl
      | true => rw [hx] at h1; simp at h1
    rw [hd] at h2
    refine ⟨by simp [hd], by rw [hd]; exact h2⟩

theorem noRunAfter_dropWhile (l : Str) :
    ∀ b, noRunAfter b l = true →
      noRunAfter true (l.dropWhile isPySpace) = true := by
  induction l with
  | nil => intro b _; rfl
  | cons d rest ih =>
    intro b h
    simp only [noRunAfter, Bool.and_eq_true] at h
    obtain ⟨h1, h2⟩ := h
    cases hd : isPySpace d with
    | true =>
      rw [hd] at h2
      rw [List.dropWhile_cons_of_pos hd]
      exact ih true h2
    | false =>
      rw [hd] at h2
      rw [List.dropWhile_cons_of_neg (by simp [hd])]
      simp [noRunAfter, hd, h2]

theorem noRunAfter_append_left (l₁ l₂ : Str) :
    ∀ b, noRunAfter b (l₁ ++ l₂) = true → noRunAfter b l₁ = true := by
  induction l₁ with
  | nil => intro b _; rfl
  | cons d rest ih =>
    intro b h
    simp only [List.cons_append, noRunAfter, Bool.and_eq_true] at h ⊢
    obtain ⟨h1, h2⟩ := h
    exact ⟨h1, ih (isPySpace d) h2⟩

theorem headNotSpace_dropWhile (l : Str) :
    headNotSpace (l.dropWhile isPySpace) = true := by
  induction l with
  | nil => rfl
  | cons d rest ih =>
    cases hd : isPySpace d with
    | true =>
      rw [List.dropWhile_cons_of_pos hd]
      exact ih
    | false =>
      rw [List.dropWhile_cons_of_neg (by simp [hd])]
      simp [headNotSpace, hd]

theorem dropWhile_eq_self_of_headNotSpace (l : Str)
    (h : headNotSpace l = true) : l.dropWhile isPySpace = l := by
  cases l with
  | nil => rfl
  | cons d rest =>
    simp only [headNotSpace, Bool.not_eq_true'] at h
    exact List.dropWhile_cons_of_neg (by simp [h])

theorem mem_of_mem_dropWhile (p : Char → Bool) (l : Str) (c : Char)
    (h : c ∈ l.dropWhile p) : c ∈ l := by
  induction l with
  | nil => simp at h
  | cons d rest ih =>
    by_cases hd : p d = true
    · rw [List.dropWhile_cons_of_pos hd] at h
      exact List.mem_cons_of_mem d (ih h)
    · rw [List.dropWhile_cons_of_neg (by simp [hd])] at h
      exact h

theorem exists_append_dropWhile (p : Char → Bool) (l : Str) :
    ∃ t, l = t ++ l.dropWhile p := by
  induction l with
  | nil => exact ⟨[], rfl⟩
  | cons d rest ih =>
    by_cases hd : p d = true
    · obtain ⟨t, ht⟩ := ih
      refine ⟨d :: t, ?_⟩
      rw [List.dropWhile_cons_of_pos hd, List.cons_append, ← ht]
    · refine ⟨[], ?_⟩
      rw [List.dropWhile_cons_of_neg (by simp [hd]), List.nil_append]

theorem headNotSpace_of_noRunAfter_true (l : Str)
    (h : noRunAfter true l = true) : headNotSpace l = true := by
  cases l with
  | nil => rfl
  | cons d rest =>
    simp only [noRunAfter, Bool.and_eq_true] at h
    obtain ⟨h1, _⟩ := h
    cases hd : isPySpace d with
    | false => simp [headNotSpace, hd]
    | true => rw [hd] at h1; simp at h1

theorem normStr_chars_clean (s : Str) :
    ∀ c ∈ normStr s, cleanChar c = true := by
  intro c hc
  simp only [normStr, pyStrip] at hc
  rw [List.mem_reverse] at hc
  have hc2 := mem_of_mem_dropWhile isPySpace _ c hc
  rw [List.mem_reverse] at hc2
  have hc3 := mem_of_mem_dropWhile isPySpace _ c hc2
  rcases mem_collapseWsAux _ false c hc3 with h1 | ⟨h1, h2⟩
  · subst h1; decide
  · have hk := mem_subBadAux _ false c h2
    simp only [keepClass, Bool.or_eq_true] at hk
    rcases hk with hk | hk
    · simp [cleanChar, hk]
    · rw [h1] at hk
      exact absurd hk (by simp)

theorem normStr_noRunAfter (s : Str) :
    noRunAfter true (normStr s) = true := by
  have hy := noRunAfter_collapseWsAux (subBadAux false (pyLower s)) false
  have ha := noRunAfter_dropWhile _ false hy
  obtain ⟨t, ht⟩ := exists_append_dropWhile isPySpace
    ((collapseWsAux false (subBadAux false (pyLower s))).dropWhile
      isPySpace).reverse
  have ha2 : (collapseWsAux false (subBadAux false (pyLower s))).dropWhile
      isPySpace =
      (((collapseWsAux false (subBadAux false (pyLower s))).dropWhile
        isPySpace).reverse.dropWhile isPySpace).reverse ++ t.reverse := by
    calc (collapseWsAux false (subBadAux false (pyLower s))).dropWhile
          isPySpace =
        ((collapseWsAux false (subBadAux false (pyLower s))).dropWhile
          isPySpace).reverse.reverse := (List.reverse_reverse _).symm
      _ = (t ++ (((collapseWsAux false (subBadAux false
            (pyLower s))).dropWhile isPySpace).reverse.dropWhile
            isPySpace)).reverse := by rw [← ht]
      _ = _ := List.reverse_append _ _
  rw [ha2] at ha
  exact noRunAfter_append_left _ _ true ha

theorem normStr_revHeadNotSpace (s : Str) :
    headNotSpace (normStr s).reverse = true := by
  simp only [normStr, pyStrip, List.reverse_reverse]
  exact headNotSpace_dropWhile _

theorem normStr_fix (l : Str) (hclean : ∀ c ∈ l, cleanChar c = true)
    (hrun : noRunAfter true l = true)
    (hrev : headNotSpace l.reverse = true) : normStr l = l := by
  have hl : pyLower l = l := pyLower_of_clean l hclean
  have hkeep : ∀ c ∈ l, keepClass c = true := fun c hc =>
    keepClass_of_cleanChar c (hclean c hc)
  have hs : subBadAux false l = l := subBadAux_id l hkeep false
  have hcol : collapseWsAux false l = l :=
    collapseWsAux_id l false hclean (noRunAfter_of_true l hrun false)
  have hd1 : l.dropWhile isPySpace = l :=
    dropWhile_eq_self_of_headNotSpace l (headNotSpace_of_noRunAfter_true l hrun)
  have hd2 : l.reverse.dropWhile isPySpace = l.reverse :=
    dropWhile_eq_self_of_headNotSpace l.reverse hrev
  simp only [normStr, hl, hs, hcol, pyStrip, hd1, hd2, List.reverse_reverse]

/-- C6 (confirmed): the normalizer is total by construction and
idempotent - normalizing twice yields the normalization - and a missing
(None) input normalizes to the empty string. -/
theorem c6_norm_total_idempotent :
    (∀ s : Str, normStr (normStr s) = normStr s) ∧
    _norm none = [] ∧
    (∀ o : Option Str, _norm (some (_norm o)) = _norm o) := by
  have hid : ∀ s : Str, normStr (normStr s) = normStr s := fun s =>
    normStr_fix (normStr s) (normStr_chars_clean s) (normStr_noRunAfter s)
      (normStr_revHeadNotSpace s)
  exact ⟨hid, rfl, fun o => hid (pyOrEmpty o)⟩
